import Mathlib

/-!
Verification of the eventprop repository's loss layers, dataset shuffling and
training loop against its natural-language specification.

The Python source is shallowly embedded:

* NumPy `NaN` entries (missing first spikes) become `Option ℝ` with `none` as
  the missing sentinel; `np.nansum` becomes a sum over the non-`none` entries.
* Python exceptions become `Except PyErr`.  `PyErr.runtimeError` stands for the
  explicit `RuntimeError("Run forward first!")` ordering guard, while
  `PyErr.attributeError` stands for Python's `AttributeError`, raised when a
  method reads an instance attribute that `forward` has not set yet.
* The external C++ spike containers (`eventprop_cpp`) are represented by the
  summary data the loss layers actually read: per-sample first-spike-time and
  first-spike-index arrays (TTFS) and per-sample voltage-maxima arrays (VMax).
  `set_error` calls are recorded as an explicit injection log (TTFS) or as
  writes into a per-sample error array (VMax).
* The training loop of `training.py` is embedded over ℚ (its logic is purely
  structural: list appends, a learning-rate recurrence, and modular tests);
  the external network evaluation is abstracted as per-iteration result pairs.
-/

/-- Kinds of Python exception observable in the embedded methods:
`runtimeError` is the explicit ordering guard `RuntimeError("Run forward
first!")`; `attributeError` is an `AttributeError` from reading an attribute
that only `forward` assigns. -/
inductive PyErr where
  | runtimeError
  | attributeError
  deriving DecidableEq, Repr

/-- Embedding of `np.nansum` over a vector with `NaN` (= `none`) entries: sum of the
non-missing entries. -/
noncomputable def nansum (l : List (Option ℝ)) : ℝ :=
  (l.filterMap id).sum

/-- Parameters of `TTFSCrossEntropyLoss` (`loss_layer.py`, lines 9-13):
`n` is the neuron count from the wrapped LIF layer's parameters. -/
structure TTFSParams where
  n : ℕ
  alpha : ℝ
  tau0 : ℝ
  tau1 : ℝ

/-- Mutable state of a `TTFSCrossEntropyLoss` instance.  `__init__` sets
`first_spike_times = None` and does not set `_batch_idxs`/`n_batch`; `forward`
assigns all of them and sets `_ran_forward`.  Unset Python attributes and
`None` are both rendered as `none` here (reading either fails). -/
structure TTFSState where
  firstSpikeTimes : Option (List (List (Option ℝ)))
  firstSpikeIdxs : Option (List (List ℕ))
  batchIdxs : Option (List ℕ)
  nBatch : Option ℕ
  ranForward : Bool

/-- The state of a freshly constructed `TTFSCrossEntropyLoss` before any
`forward` call: no spike summaries, no batch indices, `_ran_forward = False`. -/
def TTFSState.fresh : TTFSState :=
  ⟨none, none, none, none, false⟩

/-- Embedding of `TTFSCrossEntropyLoss.forward` (lines 30-51): stores the per-sample
first-spike-time and first-spike-index arrays extracted from the post batch,
sets `_batch_idxs = arange(n_batch)`, `n_batch`, and `_ran_forward = True`. -/
def ttfsForward (times : List (List (Option ℝ))) (idxs : List (List ℕ)) :
    TTFSState :=
  ⟨some times, some idxs, some (List.range times.length), some times.length, true⟩

/-- Row sum `np.nansum(np.exp(-first_spike_times / tau0), axis=1)` for one
sample (lines 60-62 and 94). -/
noncomputable def rowSum0 (p : TTFSParams) (row : List (Option ℝ)) : ℝ :=
  nansum (row.map (Option.map fun t => Real.exp (-t / p.tau0)))

/-- Per-sample loss of `TTFSCrossEntropyLoss.get_losses` (lines 59-66).
`NaN` propagation: the result is `NaN` (= `none`) exactly when the label
neuron's first-spike time is missing, mirroring IEEE arithmetic in the
source (every operation applied to `t_labels` propagates `NaN`). -/
noncomputable def ttfsSampleLoss (p : TTFSParams) (row : List (Option ℝ)) (y : ℕ) :
    Option ℝ :=
  (row.getD y none).map fun t =>
    -Real.log (Real.exp (-t / p.tau0) / rowSum0 p row) +
      p.alpha * (Real.exp (t / p.tau1) - 1)

/-- Embedding of `TTFSCrossEntropyLoss.get_losses` (lines 53-67): guarded by
`_ran_forward`, then the vectorised per-sample loss. -/
noncomputable def ttfsGetLosses (p : TTFSParams) (st : TTFSState) (labels : List ℕ) :
    Except PyErr (List (Option ℝ)) :=
  if st.ranForward = false then .error .runtimeError
  else
    match st.firstSpikeTimes, st.batchIdxs with
    | some times, some bidxs =>
        .ok (bidxs.map fun i => ttfsSampleLoss p (times.getD i []) (labels.getD i 0))
    | _, _ => .error .attributeError

/-- Per-sample score of `TTFSCrossEntropyLoss.get_accuracy` (lines 73-83):
0 when the label spike is missing, otherwise 1 iff every non-missing
first-spike time of the sample is `≥` the label neuron's time. -/
noncomputable def ttfsScore (row : List (Option ℝ)) (y : ℕ) : ℝ :=
  match row.getD y none with
  | none => 0
  | some tl => if ∀ t ∈ row.filterMap id, tl ≤ t then 1 else 0

/-- Embedding of `TTFSCrossEntropyLoss.get_accuracy` (lines 69-84).  The method has no
`_ran_forward` guard: before `forward` it reads `self._batch_idxs`, an
attribute only `forward` assigns, so it dies with an `AttributeError`.
The mean over the per-sample scores is `np.mean(results)`. -/
noncomputable def ttfsGetAccuracy (st : TTFSState) (labels : List ℕ) :
    Except PyErr ℝ :=
  match st.batchIdxs, st.firstSpikeTimes with
  | some bidxs, some times =>
      let results := bidxs.map fun i => ttfsScore (times.getD i []) (labels.getD i 0)
      .ok (results.sum / results.length)
  | _, _ => .error .attributeError

/-- Label-neuron error of `TTFSCrossEntropyLoss.backward` (lines 98-102),
including the division by `n_batch`.  `NaN` (= `none`) exactly when the label
first-spike time is missing.  The source's substitution `sum0[sum0 == 0] =
inf` (line 96) is unobservable here: `sum0 = 0` forces every entry of the row
— in particular the label's — to be missing, so the sample produces `none`
either way; for the remaining uses Lean's `x / 0 = 0` agrees with the
Python value `x / inf = 0`. -/
noncomputable def ttfsLabelError (p : TTFSParams) (B : ℕ) (row : List (Option ℝ)) (y : ℕ) :
    Option ℝ :=
  (row.getD y none).map fun t =>
    (1 / p.tau0 - Real.exp (-t / p.tau0) / (p.tau0 * rowSum0 p row) +
        p.alpha / p.tau1 * Real.exp (t / p.tau1)) / B

/-- Non-label-neuron error of `TTFSCrossEntropyLoss.backward`
(lines 110-111), including the division by `n_batch`. -/
noncomputable def ttfsOtherError (p : TTFSParams) (B : ℕ) (row : List (Option ℝ)) (j : ℕ) :
    Option ℝ :=
  (row.getD j none).map fun t =>
    -1 / (p.tau0 * rowSum0 p row) * Real.exp (-t / p.tau0) / B

/-- Embedding of `TTFSCrossEntropyLoss.backward` (lines 86-124), rendered as the log of
`set_error` calls it performs: each entry is `(sample index, event index,
error value)`.  The first loop (lines 103-108) injects the label-neuron error
whenever it is not `NaN`; the second loop (lines 112-122) skips samples with
a `NaN` label error and injects the error of every other neuron whose own
first spike is present. -/
noncomputable def ttfsBackward (p : TTFSParams) (st : TTFSState) (labels : List ℕ) :
    Except PyErr (List (ℕ × ℕ × ℝ)) :=
  if st.ranForward = false then .error .runtimeError
  else
    match st.firstSpikeTimes, st.firstSpikeIdxs, st.nBatch with
    | some times, some idxs, some B =>
        let firstLoop := (List.range B).filterMap fun i =>
          (ttfsLabelError p B (times.getD i []) (labels.getD i 0)).map fun e =>
            (i, (idxs.getD i []).getD (labels.getD i 0) 0, e)
        let secondLoop := (List.range B).flatMap fun i =>
          if (ttfsLabelError p B (times.getD i []) (labels.getD i 0)).isNone then []
          else
            (List.range p.n).filterMap fun j =>
              if j = labels.getD i 0 then none
              else
                (ttfsOtherError p B (times.getD i []) j).map fun e =>
                  (i, (idxs.getD i []).getD j 0, e)
        .ok (firstLoop ++ secondLoop)
    | _, _, _ => .error .attributeError

/-- Mutable state of a `VMaxCrossEntropyLoss` instance.  Only `forward`
(lines 128-135) assigns `maxima` (the per-sample voltage-maxima arrays read
from `maxima_batch`), `sum0` and `n_batch`. -/
structure VMaxState where
  maxima : Option (List (List ℝ))
  sum0 : Option (List ℝ)
  nBatch : Option ℕ
  ranForward : Bool

/-- A freshly constructed `VMaxCrossEntropyLoss`: no maxima, no `sum0`, no
`n_batch`, `_ran_forward = False`. -/
def VMaxState.fresh : VMaxState :=
  ⟨none, none, none, false⟩

/-- Embedding of `VMaxCrossEntropyLoss.forward` (lines 128-135): records the voltage
maxima, precomputes `sum0[i] = Σ_j exp(v_{i,j})` and sets `n_batch` and
`_ran_forward`. -/
noncomputable def vmaxForward (M : List (List ℝ)) : VMaxState :=
  ⟨some M, some (M.map fun row => (row.map Real.exp).sum), some M.length, true⟩

/-- Per-sample loss of `VMaxCrossEntropyLoss.get_losses` (lines 143-149)
with `sum0` already expanded to `Σ_j exp(v_j)` as `forward` computes it. -/
noncomputable def vmaxSampleLoss (row : List ℝ) (y : ℕ) : ℝ :=
  -Real.log (Real.exp (row.getD y 0) / (row.map Real.exp).sum)

/-- Embedding of `VMaxCrossEntropyLoss.get_losses` (lines 137-150): guarded by
`_ran_forward`, then `-log(exp(v_{i,y_i}) / sum0_i)` per sample. -/
noncomputable def vmaxGetLosses (st : VMaxState) (labels : List ℕ) :
    Except PyErr (List ℝ) :=
  if st.ranForward = false then .error .runtimeError
  else
    match st.maxima, st.sum0, st.nBatch with
    | some M, some sums, some B =>
        .ok ((List.range B).map fun i =>
          -Real.log (Real.exp ((M.getD i []).getD (labels.getD i 0) 0) / sums.getD i 0))
    | _, _, _ => .error .attributeError

/-- Per-sample score of `VMaxCrossEntropyLoss.get_accuracy` (lines 160-166):
`np.sum(values >= values[label]) == 1`, i.e. 1 iff exactly one entry of the
row is `≥` the label entry. -/
noncomputable def vmaxScore (row : List ℝ) (y : ℕ) : ℝ :=
  if row.countP (fun v => decide (row.getD y 0 ≤ v)) = 1 then 1 else 0

/-- Embedding of `VMaxCrossEntropyLoss.get_accuracy` (lines 157-169).  The method has no
`_ran_forward` guard: before `forward` it reads `self.n_batch`, an attribute
only `forward` assigns, so it dies with an `AttributeError`. -/
noncomputable def vmaxGetAccuracy (st : VMaxState) (labels : List ℕ) :
    Except PyErr ℝ :=
  match st.nBatch, st.maxima with
  | some B, some M =>
      let results := (List.range B).map fun i => vmaxScore (M.getD i []) (labels.getD i 0)
      .ok (results.sum / results.length)
  | _, _ => .error .attributeError

/-- Modelled from the spec: the maxima error-injection capability of the
external `eventprop_cpp` module (not under `src/`).  Per §6 the capability
accepts `set_error(index, value)` writing a scalar error at that index; the
error store of one sample is an array of one slot per neuron, initially
zero, and `set_error` assigns (overwrites) the slot.  Folding the calls of
`VMaxCrossEntropyLoss.backward` therefore yields the final per-neuron error
array. -/
def setErrorFold (n : ℕ) (calls : List (ℕ × ℝ)) : List ℝ :=
  calls.foldl (fun a c => a.set c.1 c.2) (List.replicate n 0)

/-- Embedding of `VMaxCrossEntropyLoss.backward` (lines 171-187), rendered as the final
per-sample error array left by its `set_error` calls: for each sample it
writes `error_j = (1/n_batch) · exp(v_j) / sum0` at every neuron `j`
(lines 175-183) and then overwrites the label slot with
`error_y − 1/n_batch` (lines 184-186). -/
noncomputable def vmaxBackward (n : ℕ) (st : VMaxState) (labels : List ℕ) :
    Except PyErr (List (List ℝ)) :=
  if st.ranForward = false then .error .runtimeError
  else
    match st.maxima, st.sum0, st.nBatch with
    | some M, some sums, some B =>
        .ok ((List.range B).map fun i =>
          let row := M.getD i []
          let err : ℕ → ℝ := fun j => 1 / (M.length : ℝ) * Real.exp (row.getD j 0) / sums.getD i 0
          setErrorFold n
            (((List.range n).map fun j => (j, err j)) ++
              [(labels.getD i 0, err (labels.getD i 0) - 1 / (M.length : ℝ))]))
    | _, _, _ => .error .attributeError

/-- Embedding of `SpikeDataset` (`layer.py`, lines 10-28): a batch of per-sample spike
trains paired with one label per sample. -/
structure SpikeDataset (α β : Type) where
  spikes : List α
  labels : List β

/-- Embedding of `SpikeDataset.shuffle` (lines 24-28) with the permutation drawn by
`np.random.shuffle` made explicit: the same index list is applied to the
spikes and to the labels. -/
def SpikeDataset.shuffle {α β : Type} (dA : α) (dB : β) (idxs : List ℕ)
    (D : SpikeDataset α β) : SpikeDataset α β :=
  ⟨idxs.map fun i => D.spikes.getD i dA, idxs.map fun i => D.labels.getD i dB⟩

/-- Accumulated run state of `AbstractTraining` (`training.py`): the
optimizer's learning rate and the metric histories.  Numeric values are
embedded over ℚ; weight snapshots and file output are external and omitted. -/
structure RunState where
  lr : ℚ
  losses : List ℚ
  accuracies : List ℚ
  validLosses : List ℚ
  validAccuracies : List ℚ
  testLosses : List ℚ
  testAccuracies : List ℚ

/-- Embedding of `AbstractTraining.valid` (lines 60-63): evaluates the validation set
(the pair `res` abstracts `_get_results_for_set(self.valid_batch)`, whose
value comes from the external network evaluation), appends accuracy and loss
to the histories, and — having no `return` statement — returns Python's
`None`, rendered as `Option.none`. -/
def trainingValid (res : ℚ × ℚ) (st : RunState) : RunState × Option (ℚ × ℚ) :=
  (⟨st.lr, st.losses, st.accuracies, st.validLosses ++ [res.1],
      st.validAccuracies ++ [res.2], st.testLosses, st.testAccuracies⟩, none)

/-- Embedding of `AbstractTraining.test` (lines 65-68): same as `valid` for the test set;
no `return` statement, so it returns `None`. -/
def trainingTest (res : ℚ × ℚ) (st : RunState) : RunState × Option (ℚ × ℚ) :=
  (⟨st.lr, st.losses, st.accuracies, st.validLosses, st.validAccuracies,
      st.testLosses ++ [res.1], st.testAccuracies ++ [res.2]⟩, none)

/-- Configuration of `AbstractTraining.train` relevant to the loop body:
decay factor, decay period, and the `valid_every`/`test_every` flags
(`None` disables the periodic evaluation, as in the source). -/
structure TrainCfg where
  gamma : ℚ
  decayStep : Option ℕ
  validEvery : Option ℕ
  testEvery : Option ℕ
  iterations : ℕ

/-- Embedding of `AbstractTraining.reset_results` (lines 87-91): clears all histories
(the learning rate is untouched). -/
def resetResults (st : RunState) : RunState :=
  ⟨st.lr, [], [], [], [], [], []⟩

/-- One iteration of the `train` loop body (lines 113-151).  `batch`
abstracts the `(nanmean loss, accuracy)` pair obtained from the minibatch
after `forward_and_backward`; `vres`/`tres` abstract the external evaluation
pairs used by `valid`/`test`.  The optimizer step, gradient reset,
dead-neuron processing and checkpoint writes touch no field of `RunState`
other than those modelled; the learning-rate decay (lines 127-132) fires
when `lr_decay_step` is set, `iteration > 0` and
`iteration % lr_decay_step == 0`. -/
def trainIter (cfg : TrainCfg) (batch vres tres : ℚ × ℚ) (i : ℕ)
    (st : RunState) : RunState :=
  let st1 : RunState :=
    ⟨st.lr, st.losses ++ [batch.1], st.accuracies ++ [batch.2], st.validLosses,
      st.validAccuracies, st.testLosses, st.testAccuracies⟩
  let st2 : RunState :=
    match cfg.decayStep with
    | some step => if 0 < i ∧ i % step = 0 then
        ⟨st1.lr * cfg.gamma, st1.losses, st1.accuracies, st1.validLosses,
          st1.validAccuracies, st1.testLosses, st1.testAccuracies⟩
      else st1
    | none => st1
  let st3 : RunState :=
    match cfg.validEvery with
    | some ve => if i % ve = 0 then (trainingValid vres st2).1 else st2
    | none => st2
  match cfg.testEvery with
  | some te => if i % te = 0 then (trainingTest tres st3).1 else st3
  | none => st3

/-- The `train` loop state after the first `m` iterations, starting from the
`reset_results` state (line 112). -/
def trainPartial (cfg : TrainCfg) (bS vS tS : ℕ → ℚ × ℚ) (st : RunState)
    (m : ℕ) : RunState :=
  (List.range m).foldl (fun s i => trainIter cfg (bS i) (vS i) (tS i) i s)
    (resetResults st)

/-- Embedding of `AbstractTraining.train` (lines 105-152): runs all iterations and ends
with `return self.test()` (line 152) — so its value is whatever `test`
returns, namely `None`. -/
def trainingTrain (cfg : TrainCfg) (bS vS tS : ℕ → ℚ × ℚ) (finalT : ℚ × ℚ)
    (st : RunState) : RunState × Option (ℚ × ℚ) :=
  trainingTest finalT (trainPartial cfg bS vS tS st cfg.iterations)

/-- Embedding of `AbstractTwoLayer.process_dead_neurons` (`training.py`, lines 212-223):
if the hidden dead fraction exceeds its threshold, bump every hidden input
weight by `weight_increase_bump`; otherwise, if the output dead fraction
exceeds its threshold, bump the output input weights.  Weight arrays are
embedded as lists over ℚ; `w_in += bump` adds the scalar elementwise. -/
def processDeadNeurons (bump thH thO fqh fqo : ℚ) (hw ow : List ℚ) :
    List ℚ × List ℚ :=
  if thH < fqh then (hw.map fun w => w + bump, ow)
  else if thO < fqo then (hw, ow.map fun w => w + bump)
  else (hw, ow)

/-- Spec-side sum: `s = Σ_j exp(-t_j/tau0)` taken only over the neurons whose
first spike is non-missing, as the claims word it. -/
noncomputable def spikedSum (p : TTFSParams) (row : List (Option ℝ)) : ℝ :=
  ((row.filterMap id).map fun t => Real.exp (-t / p.tau0)).sum

/-- Spec-side per-sample TTFS loss, following the claim's words: undefined
(`none`) exactly when the label neuron's first spike is missing, otherwise
`-log(exp(-t_y/tau0)/s) + alpha·(exp(t_y/tau1) − 1)` with `s = spikedSum`. -/
noncomputable def ttfsLossClaim (p : TTFSParams) (row : List (Option ℝ)) (y : ℕ) :
    Option ℝ :=
  match row.getD y none with
  | none => none
  | some t => some (-Real.log (Real.exp (-t / p.tau0) / spikedSum p row) +
      p.alpha * (Real.exp (t / p.tau1) - 1))

/-- Spec-side injection list for `TTFSCrossEntropyLoss.backward`, following
the claim's words: for each sample `i` whose label spike exists, the label
neuron receives `(1/tau0 − exp(−t_y/tau0)/(tau0·s) + (alpha/tau1)·exp(t_y/tau1))/B`
at its stored first-spike event index, and every other neuron `j ≠ y_i` with a
non-missing spike receives `−exp(−t_j/tau0)/(tau0·s)/B`; samples with a
missing label spike and individual missing-spike neurons get no injection. -/
noncomputable def ttfsBackwardClaim (p : TTFSParams)
    (times : List (List (Option ℝ))) (idxs : List (List ℕ))
    (labels : List ℕ) : List (ℕ × ℕ × ℝ) :=
  ((List.range times.length).filterMap fun i =>
    match (times.getD i []).getD (labels.getD i 0) none with
    | none => none
    | some t => some (i, (idxs.getD i []).getD (labels.getD i 0) 0,
        (1 / p.tau0 - Real.exp (-t / p.tau0) / (p.tau0 * spikedSum p (times.getD i [])) +
          p.alpha / p.tau1 * Real.exp (t / p.tau1)) / times.length))
  ++ ((List.range times.length).flatMap fun i =>
    match (times.getD i []).getD (labels.getD i 0) none with
    | none => []
    | some _ => (List.range p.n).filterMap fun j =>
        if j = labels.getD i 0 then none
        else
          match (times.getD i []).getD j none with
          | none => none
          | some tj => some (i, (idxs.getD i []).getD j 0,
              -Real.exp (-tj / p.tau0) / (p.tau0 * spikedSum p (times.getD i [])) / times.length))

/-- Softmax entry over a voltage-maxima row, as the claims word it. -/
noncomputable def softmaxEntry (row : List ℝ) (j : ℕ) : ℝ :=
  Real.exp (row.getD j 0) / (row.map Real.exp).sum

/-- Spec-side error arrays for `VMaxCrossEntropyLoss.backward`, following the
claim's words: neuron `j` of sample `i` receives
`(softmax(v_i)_j − 1{j = y_i}) / B`. -/
noncomputable def vmaxBackwardClaim (n : ℕ) (M : List (List ℝ))
    (labels : List ℕ) : List (List ℝ) :=
  (List.range M.length).map fun i =>
    (List.range n).map fun j =>
      (softmaxEntry (M.getD i []) j - if j = labels.getD i 0 then 1 else 0) / M.length

/-- The vectorised `np.nansum` of `exp(-t/tau0)` equals the spec-side sum over
the non-missing entries only. -/
theorem rowSum0_eq_spikedSum (p : TTFSParams) (row : List (Option ℝ)) :
    rowSum0 p row = spikedSum p row := by
  unfold rowSum0 spikedSum nansum
  rw [List.filterMap_map, List.map_filterMap]
  simp

/-- A row whose entries are all missing yields the missing value at every
index. -/
theorem getD_eq_none_of_all_none {row : List (Option ℝ)}
    (h : ∀ o ∈ row, o = none) (y : ℕ) : row.getD y none = none := by
  rcases Nat.lt_or_ge y row.length with hy | hy
  · have := List.getD_eq_getElem row none hy
    rw [this]
    exact h _ (row.getElem_mem hy)
  · exact List.getD_eq_default _ _ hy

/-- C1: after `TTFSCrossEntropyLoss.forward` has run, `backward` injects, for
each sample `i` with a non-missing label spike, the gradient
`(1/tau0 − exp(−t_y/tau0)/(tau0·s) + (alpha/tau1)·exp(t_y/tau1))/B` at the
label neuron's stored first-spike event index and
`−exp(−t_j/tau0)/(tau0·s)/B` at every other non-missing neuron's stored
index, where `s` sums `exp(-t/tau0)` over the non-missing spikes only; no
error is injected for a sample whose label spike is missing nor for an
individual missing-spike neuron. -/
theorem ttfs_backward_matches_spec (p : TTFSParams)
    (times : List (List (Option ℝ))) (idxs : List (List ℕ)) (labels : List ℕ)
    (hrows : ∀ row ∈ times, row.length = p.n)
    (hirows : ∀ row ∈ idxs, row.length = p.n)
    (hlen : labels.length = times.length)
    (hilen : idxs.length = times.length)
    (hlab : ∀ l ∈ labels, l < p.n) :
    ttfsBackward p (ttfsForward times idxs) labels =
      .ok (ttfsBackwardClaim p times idxs labels) := by
  unfold ttfsBackward ttfsForward ttfsBackwardClaim
  simp only [Bool.true_eq_false, if_false, reduceCtorEq]
  refine congrArg Except.ok (congrArg₂ (· ++ ·) ?_ ?_)
  · refine congrArg (List.filterMap · (List.range times.length)) (funext fun i => ?_)
    cases h : (times.getD i []).getD (labels.getD i 0) none with
    | none => simp only [ttfsLabelError, h]; rfl
    | some t =>
      simp only [ttfsLabelError, h, rowSum0_eq_spikedSum]; rfl
  · refine congrArg (List.flatMap (List.range times.length) ·) (funext fun i => ?_)
    cases h : (times.getD i []).getD (labels.getD i 0) none with
    | none => simp only [ttfsLabelError, h]; rfl
    | some t =>
      simp only [ttfsLabelError, h, Option.map_some', Option.isNone_some,
        Bool.false_eq_true, if_false]
      refine congrArg (List.filterMap · (List.range p.n)) (funext fun j => ?_)
      by_cases hje : j = labels.getD i 0
      · simp only [hje, if_true]
      · simp only [hje, if_false]
        cases h2 : (times.getD i []).getD j none with
        | none => simp only [ttfsOtherError, h2]; rfl
        | some tj =>
          simp only [ttfsOtherError, h2, Option.map_some',
            rowSum0_eq_spikedSum, Option.some.injEq, Prod.mk.injEq, true_and]
          ring

/-- Witness for `ttfs_backward_matches_spec` at a concrete forwarded batch of
one sample with two neurons, the second one silent. -/
theorem ttfs_backward_matches_spec_witness :
    ((∀ row ∈ [[some (1 : ℝ), none]], row.length = 2) ∧
      (∀ row ∈ [[5, 7]], row.length = 2) ∧
      ([0] : List ℕ).length = 1 ∧ (∀ l ∈ ([0] : List ℕ), l < 2)) ∧
    ttfsBackward ⟨2, 1, 1, 1⟩ (ttfsForward [[some 1, none]] [[5, 7]]) [0] =
      .ok (ttfsBackwardClaim ⟨2, 1, 1, 1⟩ [[some 1, none]] [[5, 7]] [0]) :=
  ⟨⟨by decide, by decide, by decide, by decide⟩,
    ttfs_backward_matches_spec ⟨2, 1, 1, 1⟩ [[some 1, none]] [[5, 7]] [0]
      (by decide) (by decide) (by decide) (by decide) (by decide)⟩

/-- The source's vectorised per-sample loss agrees with the spec-side loss:
`none` exactly on a missing label spike, else the claim's formula with the
sum restricted to the non-missing spikes. -/
theorem ttfsSampleLoss_eq_claim (p : TTFSParams) (row : List (Option ℝ))
    (y : ℕ) : ttfsSampleLoss p row y = ttfsLossClaim p row y := by
  cases h : row.getD y none with
  | none => simp only [ttfsSampleLoss, ttfsLossClaim, h]; rfl
  | some t =>
    simp only [ttfsSampleLoss, ttfsLossClaim, h, rowSum0_eq_spikedSum]; rfl

/-- C4: after `forward`, `get_losses` returns per sample
`-log(exp(-t_y/tau0)/s) + alpha·(exp(t_y/tau1) − 1)` where `s` sums
`exp(-t/tau0)` over the non-missing first-spike times only, the value being
undefined (`none`) when the label spike is missing; in particular a sample
with zero spiking neurons yields the undefined value rather than an error. -/
theorem ttfs_get_losses_matches_spec (p : TTFSParams)
    (times : List (List (Option ℝ))) (idxs : List (List ℕ))
    (labels : List ℕ) :
    ttfsGetLosses p (ttfsForward times idxs) labels =
      .ok ((List.range times.length).map fun i =>
        ttfsLossClaim p (times.getD i []) (labels.getD i 0)) ∧
    ∀ i, (∀ o ∈ times.getD i [], o = none) →
      ttfsLossClaim p (times.getD i []) (labels.getD i 0) = none := by
  constructor
  · unfold ttfsGetLosses ttfsForward
    simp only [Bool.true_eq_false, if_false, reduceCtorEq]
    exact congrArg Except.ok
      (congrArg (List.map · (List.range times.length))
        (funext fun i => ttfsSampleLoss_eq_claim p (times.getD i []) (labels.getD i 0)))
  · intro i hall
    unfold ttfsLossClaim
    rw [getD_eq_none_of_all_none hall]

/-- Witness for `ttfs_get_losses_matches_spec` at a one-sample batch whose
single neuron never spikes: the loss is the undefined value. -/
theorem ttfs_get_losses_matches_spec_witness :
    (∀ o ∈ ([[(none : Option ℝ)]].getD 0 []), o = none) ∧
    ttfsLossClaim ⟨1, 1, 1, 1⟩ ([[(none : Option ℝ)]].getD 0 [])
      (([0] : List ℕ).getD 0 0) = none :=
  ⟨by simp, (ttfs_get_losses_matches_spec ⟨1, 1, 1, 1⟩ [[none]] [[0]] [0]).2 0
    (by simp)⟩

/-- Membership in the non-missing entries of a row, phrased through indexed
access. -/
theorem mem_filterMap_id_iff {row : List (Option ℝ)} {t : ℝ} :
    t ∈ row.filterMap id ↔ ∃ j, ∃ h : j < row.length, row.getD j none = some t := by
  rw [List.mem_filterMap]
  constructor
  · rintro ⟨o, ho, hot⟩
    rcases List.mem_iff_getElem.mp ho with ⟨j, hj, hje⟩
    exact ⟨j, hj, by rw [List.getD_eq_getElem _ _ hj, hje]; exact hot⟩
  · rintro ⟨j, hj, hje⟩
    refine ⟨some t, ?_, rfl⟩
    rw [List.getD_eq_getElem _ _ hj] at hje
    rw [← hje]
    exact List.getElem_mem hj

/-- Scoring a sample whose label spike is missing gives 0. -/
theorem ttfsScore_none (row : List (Option ℝ)) (y : ℕ)
    (h : row.getD y none = none) : ttfsScore row y = 0 := by
  simp only [ttfsScore, h]

/-- Scoring a sample with a present label spike compares it against every
non-missing spike. -/
theorem ttfsScore_some (row : List (Option ℝ)) (y : ℕ) (tl : ℝ)
    (h : row.getD y none = some tl) :
    ttfsScore row y = if ∀ t ∈ row.filterMap id, tl ≤ t then 1 else 0 := by
  simp only [ttfsScore, h]

/-- C5: after `forward`, `get_accuracy` returns the mean over samples of a
score that is 1 iff the label spike exists and is `≤` every spiking neuron's
first-spike time (ties correct) and 0 otherwise — in particular 0 whenever
the label neuron never spikes; on first-spike times `[0.01, NaN, 0.02]` the
accuracy is 1 for label 0 and 0 for label 2. -/
theorem ttfs_get_accuracy_matches_spec (times : List (List (Option ℝ)))
    (idxs : List (List ℕ)) (labels : List ℕ) (hB : 0 < times.length) :
    ttfsGetAccuracy (ttfsForward times idxs) labels =
      .ok ((((List.range times.length).map fun i =>
        ttfsScore (times.getD i []) (labels.getD i 0)).sum) / times.length) ∧
    (∀ row y, (ttfsScore row y = 1 ↔
        ∃ tl, row.getD y none = some tl ∧
          ∀ j, ∀ hj : j < row.length, ∀ tj, row.getD j none = some tj → tl ≤ tj) ∧
      (row.getD y none = none → ttfsScore row y = 0)) ∧
    ttfsGetAccuracy
        (ttfsForward [[some (1 / 100), none, some (2 / 100)]] [[0, 1, 2]]) [0] =
      .ok 1 ∧
    ttfsGetAccuracy
        (ttfsForward [[some (1 / 100), none, some (2 / 100)]] [[0, 1, 2]]) [2] =
      .ok 0 := by
  refine ⟨?_, fun row y => ⟨?_, ttfsScore_none row y⟩, ?_, ?_⟩
  · unfold ttfsGetAccuracy ttfsForward
    simp only [List.length_map, List.length_range]
  · cases h : row.getD y none with
    | none =>
      rw [ttfsScore_none row y h]
      simp [h]
    | some tl =>
      rw [ttfsScore_some row y tl h]
      by_cases hc : ∀ t ∈ row.filterMap id, tl ≤ t
      · rw [if_pos hc]
        refine iff_of_true rfl ⟨tl, rfl, fun j hj tj htj => ?_⟩
        exact hc tj (mem_filterMap_id_iff.mpr ⟨j, hj, htj⟩)
      · rw [if_neg hc]
        refine iff_of_false (by norm_num) ?_
        rintro ⟨tl', htl', hall⟩
        injection htl' with he
        subst he
        refine hc fun t ht => ?_
        rcases mem_filterMap_id_iff.mp ht with ⟨j, hj, hje⟩
        exact hall j hj t hje
  · norm_num [ttfsGetAccuracy, ttfsForward, ttfsScore, List.filterMap_cons,
      List.forall_mem_cons, List.range_succ, List.range_zero]
  · norm_num [ttfsGetAccuracy, ttfsForward, ttfsScore, List.filterMap_cons,
      List.forall_mem_cons, List.range_succ, List.range_zero]

/-- Witness for `ttfs_get_accuracy_matches_spec` on the claim's own
one-sample batch. -/
theorem ttfs_get_accuracy_matches_spec_witness :
    0 < ([[some ((1 : ℝ) / 100), none, some (2 / 100)]] :
        List (List (Option ℝ))).length ∧
    ttfsGetAccuracy
        (ttfsForward [[some (1 / 100), none, some (2 / 100)]] [[0, 1, 2]]) [0] =
      .ok 1 :=
  ⟨by decide,
    (ttfs_get_accuracy_matches_spec [[some (1 / 100), none, some (2 / 100)]]
      [[0, 1, 2]] [0] (by decide)).2.2.1⟩

/-- Counting over a list's values equals counting over its index range. -/
theorem list_countP_eq_range_countP {α : Type} (p : α → Bool) (d : α) :
    ∀ l : List α,
      l.countP p = (List.range l.length).countP fun j => p (l.getD j d) := by
  intro l
  induction l with
  | nil => rfl
  | cons a t ih =>
    rw [List.countP_cons, List.length_cons, List.range_succ_eq_map,
      List.countP_cons, List.countP_map]
    have h1 : ((fun j => p ((a :: t).getD j d)) ∘ Nat.succ) =
        fun j => p (t.getD j d) := funext fun j => by
      simp [List.getD_cons_succ]
    rw [h1, ih]
    simp [List.getD_cons_zero]

/-- A Boolean count over `List.range` as a `Finset` filter cardinality. -/
theorem countP_range_eq_card (q : ℕ → Bool) :
    ∀ n : ℕ,
      (List.range n).countP q = ((Finset.range n).filter fun j => q j = true).card := by
  intro n
  induction n with
  | zero => rfl
  | succ m ih =>
    rw [List.range_succ, List.countP_append, Finset.range_succ,
      Finset.filter_insert]
    by_cases h : q m = true
    · rw [if_pos h, Finset.card_insert_of_not_mem (fun hmem => by
        simp [Finset.mem_filter, Finset.mem_range] at hmem)]
      simp [List.countP_cons, h, ih]
    · rw [if_neg h]
      simp [List.countP_cons, h, ih]

/-- A Boolean predicate over `range n` that holds at `y` has count exactly one
iff it fails at every other index below `n`. -/
theorem range_countP_eq_one_iff {n y : ℕ} {q : ℕ → Bool} (hy : y < n)
    (hqy : q y = true) :
    (List.range n).countP q = 1 ↔ ∀ j < n, j ≠ y → q j = false := by
  rw [countP_range_eq_card]
  have hys : y ∈ (Finset.range n).filter fun j => q j = true := by
    simp [Finset.mem_filter, Finset.mem_range, hy, hqy]
  constructor
  · intro h1 j hj hjy
    rcases Finset.card_eq_one.mp h1 with ⟨a, ha⟩
    have hay : y = a := by
      have := hys
      rw [ha] at this
      simpa using this
    by_contra hqj
    have hqjt : q j = true := by
      cases hqj2 : q j with
      | false => exact absurd hqj2 hqj
      | true => rfl
    have hjs : j ∈ (Finset.range n).filter fun j => q j = true := by
      simp [Finset.mem_filter, Finset.mem_range, hj, hqjt]
    rw [ha] at hjs
    have : j = a := by simpa using hjs
    exact hjy (this.trans hay.symm)
  · intro hall
    have hsy : ((Finset.range n).filter fun j => q j = true) = {y} := by
      apply Finset.eq_singleton_iff_unique_mem.mpr
      refine ⟨hys, fun x hx => ?_⟩
      simp only [Finset.mem_filter, Finset.mem_range] at hx
      by_contra hxy
      have := hall x hx.1 hxy
      rw [this] at hx
      exact absurd hx.2 (by simp)
    rw [hsy, Finset.card_singleton]

/-- The source's tie-breaking score is 1 exactly when the label entry is the
strict unique maximum of the row. -/
theorem vmaxScore_eq_one_iff (row : List ℝ) (y : ℕ) (hy : y < row.length) :
    vmaxScore row y = 1 ↔
      ∀ j < row.length, j ≠ y → row.getD j 0 < row.getD y 0 := by
  unfold vmaxScore
  have hq : (fun j => decide (row.getD y 0 ≤ row.getD j 0)) y = true := by simp
  rw [list_countP_eq_range_countP _ (0 : ℝ)]
  split_ifs with hcond
  · refine iff_of_true rfl fun j hj hjy => ?_
    have hf := (range_countP_eq_one_iff hy hq).mp hcond j hj hjy
    exact not_le.mp (of_decide_eq_false hf)
  · refine iff_of_false (by norm_num) fun hall => hcond ?_
    refine (range_countP_eq_one_iff hy hq).mpr fun j hj hjy => ?_
    exact decide_eq_false (not_le.mpr (hall j hj hjy))

/-- C6: after `forward`, `get_accuracy` returns the fraction of samples whose
label entry is the unique maximum: the per-sample score is 1 iff exactly one
entry of the row is `≥` the label entry, equivalently (for a valid label)
iff every other entry is strictly below it; two samples with equal maxima
`[0, 0]` and labels `[0, 1]` give accuracy 0. -/
theorem vmax_get_accuracy_matches_spec (M : List (List ℝ)) (labels : List ℕ)
    (hB : 0 < M.length) :
    vmaxGetAccuracy (vmaxForward M) labels =
      .ok ((((List.range M.length).map fun i =>
        vmaxScore (M.getD i []) (labels.getD i 0)).sum) / M.length) ∧
    (∀ row y, y < row.length →
      (vmaxScore row y = 1 ↔
        ∀ j < row.length, j ≠ y → row.getD j 0 < row.getD y 0)) ∧
    vmaxGetAccuracy (vmaxForward [[0, 0], [0, 0]]) [0, 1] = .ok 0 := by
  refine ⟨?_, fun row y hy => vmaxScore_eq_one_iff row y hy, ?_⟩
  · unfold vmaxGetAccuracy vmaxForward
    simp only [List.length_map, List.length_range]
  · norm_num [vmaxGetAccuracy, vmaxForward, vmaxScore, List.countP_cons,
      List.range_succ, List.range_zero]

/-- Witness for `vmax_get_accuracy_matches_spec` on the claim's two-sample
equal-maxima batch. -/
theorem vmax_get_accuracy_matches_spec_witness :
    0 < ([[0, 0], [0, 0]] : List (List ℝ)).length ∧
    vmaxGetAccuracy (vmaxForward [[0, 0], [0, 0]]) [0, 1] = .ok 0 :=
  ⟨by decide,
    (vmax_get_accuracy_matches_spec [[0, 0], [0, 0]] [0, 1] (by decide)).2.2⟩

/-- C3 (amended): invoked before any `forward`, all six methods fail rather
than return: `get_losses` and `backward` of both loss variants fail with the
explicit ordering `RuntimeError`, while the two `get_accuracy` methods — which
lack the `_ran_forward` guard — fail with an `AttributeError` from reading an
attribute only `forward` assigns. -/
theorem pre_forward_calls_fail (p : TTFSParams) (n : ℕ) (labels : List ℕ) :
    ttfsGetLosses p TTFSState.fresh labels = .error .runtimeError ∧
    ttfsBackward p TTFSState.fresh labels = .error .runtimeError ∧
    ttfsGetAccuracy TTFSState.fresh labels = .error .attributeError ∧
    vmaxGetLosses VMaxState.fresh labels = .error .runtimeError ∧
    vmaxBackward n VMaxState.fresh labels = .error .runtimeError ∧
    vmaxGetAccuracy VMaxState.fresh labels = .error .attributeError :=
  ⟨rfl, rfl, rfl, rfl, rfl, rfl⟩

/-- C3 counterexample: `TTFSCrossEntropyLoss.get_accuracy` called before
`forward` does not fail with the ordering error — it fails with an
`AttributeError`, because unlike `get_losses`/`backward` it never checks
`_ran_forward`. -/
theorem pre_forward_get_accuracy_not_ordering :
    ttfsGetAccuracy TTFSState.fresh [] = .error .attributeError ∧
    (Except.error PyErr.attributeError : Except PyErr ℝ) ≠
      .error .runtimeError :=
  ⟨rfl, by simp⟩

/-- C7 (amended): `valid` and `test` compute the `(loss, accuracy)` pair of
their dataset and append it to the corresponding history lists, but — having
no `return` statement — return `None`; `train` ends with `return self.test()`
and therefore also returns `None`. -/
theorem train_valid_test_return_none (res : ℚ × ℚ) (st : RunState)
    (cfg : TrainCfg) (bS vS tS : ℕ → ℚ × ℚ) (finalT : ℚ × ℚ) :
    (trainingValid res st).2 = none ∧
    (trainingValid res st).1.validLosses = st.validLosses ++ [res.1] ∧
    (trainingValid res st).1.validAccuracies = st.validAccuracies ++ [res.2] ∧
    (trainingTest res st).2 = none ∧
    (trainingTest res st).1.testLosses = st.testLosses ++ [res.1] ∧
    (trainingTest res st).1.testAccuracies = st.testAccuracies ++ [res.2] ∧
    (trainingTrain cfg bS vS tS finalT st).2 = none :=
  ⟨rfl, rfl, rfl, rfl, rfl, rfl, rfl⟩

/-- C7 counterexample: none of `valid`, `test`, `train` returns a
`(loss, accuracy)` pair — at a concrete state each returns `None`. -/
theorem train_valid_test_return_pair_counterexample :
    ((trainingValid (1, 2) ⟨1, [], [], [], [], [], []⟩).2).isSome = false ∧
    ((trainingTest (3, 4) ⟨1, [], [], [], [], [], []⟩).2).isSome = false ∧
    ((trainingTrain ⟨1, some 2, none, none, 1⟩ (fun _ => (0, 0))
        (fun _ => (0, 0)) (fun _ => (0, 0)) (5, 6)
        ⟨1, [], [], [], [], [], []⟩).2).isSome = false :=
  ⟨rfl, rfl, rfl⟩

/-- Index-wise reading of the pairing between two equal-length lists. -/
theorem range_map_getD_zip {α β : Type} (dA : α) (dB : β) (s : List α)
    (t : List β) (hlen : s.length = t.length) :
    (List.range s.length).map (fun i => (s.getD i dA, t.getD i dB)) =
      s.zip t := by
  apply List.ext_getElem
  · simp [List.length_zip, hlen]
  · intro i h1 h2
    simp only [List.getElem_map, List.getElem_range, List.getElem_zip]
    have hi : i < s.length := by simpa using h1
    rw [List.getD_eq_getElem _ _ hi, List.getD_eq_getElem _ _ (hlen ▸ hi)]

/-- C8: applying one permutation of the sample indices to both components,
`shuffle` keeps the dataset length and the multiset of (spike-train, label)
pairs: no element is added, dropped or re-paired. -/
theorem shuffle_preserves_pairs {α β : Type} (dA : α) (dB : β)
    (idxs : List ℕ) (D : SpikeDataset α β)
    (hlen : D.spikes.length = D.labels.length)
    (hperm : idxs.Perm (List.range D.spikes.length)) :
    (D.shuffle dA dB idxs).spikes.length = D.spikes.length ∧
    (D.shuffle dA dB idxs).labels.length = D.labels.length ∧
    ((D.shuffle dA dB idxs).spikes.zip (D.shuffle dA dB idxs).labels).Perm
      (D.spikes.zip D.labels) := by
  refine ⟨?_, ?_, ?_⟩
  · simp [SpikeDataset.shuffle, hperm.length_eq]
  · simp [SpikeDataset.shuffle, hperm.length_eq, hlen]
  · show ((idxs.map fun i => D.spikes.getD i dA).zip
      (idxs.map fun i => D.labels.getD i dB)).Perm (D.spikes.zip D.labels)
    rw [List.zip_map']
    have h1 : (idxs.map fun i => (D.spikes.getD i dA, D.labels.getD i dB)).Perm
        ((List.range D.spikes.length).map
          fun i => (D.spikes.getD i dA, D.labels.getD i dB)) := hperm.map _
    rw [range_map_getD_zip dA dB _ _ hlen] at h1
    exact h1

/-- Witness for `shuffle_preserves_pairs` on a two-sample dataset and the
swap permutation. -/
theorem shuffle_preserves_pairs_witness :
    ([10, 20] : List ℕ).length = ([5, 6] : List ℕ).length ∧
    ([1, 0] : List ℕ).Perm (List.range ([10, 20] : List ℕ).length) ∧
    ((SpikeDataset.shuffle 0 0 [1, 0] ⟨[10, 20], [5, 6]⟩).spikes.zip
      (SpikeDataset.shuffle 0 0 [1, 0] ⟨[10, 20], [5, 6]⟩).labels).Perm
      (([10, 20] : List ℕ).zip ([5, 6] : List ℕ)) :=
  ⟨by decide, by decide,
    (shuffle_preserves_pairs 0 0 [1, 0] ⟨[10, 20], [5, 6]⟩ (by decide)
      (by decide)).2.2⟩

/-- Elementwise form of the scalar bump `w_in += bump`. -/
theorem getD_map_add (bump : ℚ) (l : List ℚ) (k : ℕ) (hk : k < l.length) :
    (l.map fun w => w + bump).getD k 0 = l.getD k 0 + bump := by
  rw [List.getD_eq_getElem _ _ (by simpa using hk), List.getElem_map,
    List.getD_eq_getElem _ _ hk]

/-- C9: in the two-layer variant, `process_dead_neurons` adds exactly the
bump to every hidden input weight (and leaves the output weights alone) when
the hidden quiescent fraction exceeds its threshold; only otherwise, when the
output fraction exceeds its own threshold, the output weights are bumped;
when neither threshold is exceeded nothing changes. -/
theorem process_dead_neurons_matches_spec (bump thH thO fqh fqo : ℚ)
    (hw ow : List ℚ) :
    (thH < fqh →
      (processDeadNeurons bump thH thO fqh fqo hw ow).1.length = hw.length ∧
      (∀ k, k < hw.length →
        (processDeadNeurons bump thH thO fqh fqo hw ow).1.getD k 0 =
          hw.getD k 0 + bump) ∧
      (processDeadNeurons bump thH thO fqh fqo hw ow).2 = ow) ∧
    (¬thH < fqh → thO < fqo →
      (processDeadNeurons bump thH thO fqh fqo hw ow).1 = hw ∧
      (processDeadNeurons bump thH thO fqh fqo hw ow).2.length = ow.length ∧
      ∀ k, k < ow.length →
        (processDeadNeurons bump thH thO fqh fqo hw ow).2.getD k 0 =
          ow.getD k 0 + bump) ∧
    (¬thH < fqh → ¬thO < fqo →
      processDeadNeurons bump thH thO fqh fqo hw ow = (hw, ow)) := by
  refine ⟨fun h1 => ?_, fun h1 h2 => ?_, fun h1 h2 => ?_⟩
  · unfold processDeadNeurons
    rw [if_pos h1]
    exact ⟨List.length_map _ _, fun k hk => getD_map_add bump hw k hk, rfl⟩
  · unfold processDeadNeurons
    rw [if_neg h1, if_pos h2]
    exact ⟨rfl, List.length_map _ _, fun k hk => getD_map_add bump ow k hk⟩
  · unfold processDeadNeurons
    rw [if_neg h1, if_neg h2]

/-- Witness for `process_dead_neurons_matches_spec`: hidden fraction above
threshold bumps the first hidden weight. -/
theorem process_dead_neurons_matches_spec_witness :
    ((0 : ℚ) < 1) ∧
    (processDeadNeurons 1 0 0 1 0 [2, 3] [4]).1.getD 0 0 = 2 + 1 :=
  ⟨by decide,
    ((process_dead_neurons_matches_spec 1 0 0 1 0 [2, 3] [4]).1
      (by decide)).2.1 0 (by decide)⟩

/-- The loop body changes the learning rate exactly at the iterations whose
zero-based index is a positive multiple of `lr_decay_step`. -/
theorem trainIter_lr (cfg : TrainCfg) (step : ℕ)
    (hstep : cfg.decayStep = some step) (batch vres tres : ℚ × ℚ) (i : ℕ)
    (st : RunState) :
    (trainIter cfg batch vres tres i st).lr =
      if 0 < i ∧ i % step = 0 then st.lr * cfg.gamma else st.lr := by
  unfold trainIter trainingValid trainingTest
  rw [hstep]
  cases cfg.validEvery <;> cases cfg.testEvery <;> dsimp only <;>
    split_ifs <;> rfl

/-- C10 (amended): with `lr_decay_step` set to `step > 0`, the decay fires
during the iterations with zero-based index `step, 2·step, …` (i.e. after
`step + 1, 2·step + 1, …` completed iterations, one later than the claimed
boundaries), so after `m ≥ 1` completed iterations the learning rate equals
`initial_lr · gamma ^ ⌊(m − 1)/step⌋`, and between those firings the loop
never modifies it. -/
theorem train_lr_decay_schedule (cfg : TrainCfg) (step : ℕ)
    (hstep : cfg.decayStep = some step) (hpos : 0 < step)
    (bS vS tS : ℕ → ℚ × ℚ) (st : RunState) :
    ∀ m : ℕ, (trainPartial cfg bS vS tS st m).lr =
      st.lr * cfg.gamma ^ (if m = 0 then 0 else (m - 1) / step) := by
  intro m
  induction m with
  | zero => simp [trainPartial, resetResults]
  | succ k ih =>
    rw [show trainPartial cfg bS vS tS st (k + 1) =
        trainIter cfg (bS k) (vS k) (tS k) k (trainPartial cfg bS vS tS st k)
      from by
        unfold trainPartial
        rw [List.range_succ, List.foldl_append, List.foldl_cons, List.foldl_nil]]
    rw [trainIter_lr cfg step hstep, ih]
    rcases Nat.eq_zero_or_pos k with hk | hk
    · subst hk
      simp
    · have hk1 : k - 1 + 1 = k := Nat.succ_pred_eq_of_pos hk
      have hexp : (if k + 1 = 0 then 0 else (k + 1 - 1) / step) = k / step := by
        simp
      have hexp2 : (if k = 0 then 0 else (k - 1) / step) = (k - 1) / step := by
        simp [hk.ne']
      rw [hexp, hexp2]
      by_cases hd : step ∣ k
      · have hmod : k % step = 0 := by
          obtain ⟨c, rfl⟩ := hd
          exact Nat.mul_mod_right step c
        rw [if_pos ⟨hk, hmod⟩]
        have hdiv : k / step = (k - 1) / step + 1 := by
          conv_lhs => rw [← hk1]
          rw [Nat.succ_div, if_pos (by rw [hk1]; exact hd)]
        rw [hdiv, pow_succ]
        ring
      · rw [if_neg (fun hc => hd (Nat.dvd_of_mod_eq_zero hc.2))]
        have hdiv : k / step = (k - 1) / step := by
          conv_lhs => rw [← hk1]
          rw [Nat.succ_div, if_neg (by rw [hk1]; exact hd)]
          omega
        rw [hdiv]

/-- Witness for `train_lr_decay_schedule` after 5 iterations with period 2:
the learning rate has decayed `⌊4/2⌋ = 2` times. -/
theorem train_lr_decay_schedule_witness :
    (⟨1 / 2, some 2, none, none, 9⟩ : TrainCfg).decayStep = some 2 ∧
    (0 : ℕ) < 2 ∧
    (trainPartial ⟨1 / 2, some 2, none, none, 9⟩ (fun _ => (0, 0))
        (fun _ => (0, 0)) (fun _ => (0, 0)) ⟨1, [], [], [], [], [], []⟩ 5).lr =
      (⟨1, [], [], [], [], [], []⟩ : RunState).lr *
        (⟨1 / 2, some 2, none, none, 9⟩ : TrainCfg).gamma ^
          (if 5 = 0 then 0 else (5 - 1) / 2) :=
  ⟨rfl, by decide,
    train_lr_decay_schedule ⟨1 / 2, some 2, none, none, 9⟩ 2 rfl (by decide)
      (fun _ => (0, 0)) (fun _ => (0, 0)) (fun _ => (0, 0))
      ⟨1, [], [], [], [], [], []⟩ 5⟩

/-- C10 counterexample: with `lr_decay_step = 2`, `gamma = 1/2` and initial
learning rate 1, after exactly 2 completed iterations the learning rate is
still 1 — not `1 · (1/2)^1` as the claim's boundary count demands — because
the decay test `iteration > 0 and iteration % step == 0` first fires during
the iteration with zero-based index 2, one epoch after the claimed boundary. -/
theorem train_lr_decay_at_boundary_counterexample :
    (trainPartial ⟨1 / 2, some 2, none, none, 2⟩ (fun _ => (0, 0))
        (fun _ => (0, 0)) (fun _ => (0, 0)) ⟨1, [], [], [], [], [], []⟩ 2).lr =
      1 ∧
    (1 : ℚ) ≠ 1 * (1 / 2) ^ 1 :=
  ⟨rfl, by norm_num⟩

/-- Reading a set slot at its own index. -/
theorem getD_set_self_real (l : List ℝ) (j : ℕ) (x : ℝ) (hj : j < l.length) :
    (l.set j x).getD j 0 = x := by
  rw [List.getD_eq_getElem _ _ (by simpa using hj), List.getElem_set_self]

/-- Reading a set slot at a different index. -/
theorem getD_set_ne_real (l : List ℝ) (i j : ℕ) (x : ℝ) (hij : i ≠ j) :
    (l.set i x).getD j 0 = l.getD j 0 := by
  rcases Nat.lt_or_ge j l.length with hj | hj
  · rw [List.getD_eq_getElem _ _ (by simpa using hj), List.getElem_set_ne hij,
      List.getD_eq_getElem _ _ hj]
  · rw [List.getD_eq_default _ _ (by simpa using hj), List.getD_eq_default _ _ hj]

/-- Folding index-wise writes preserves the array length. -/
theorem foldl_set_fn_length (f : ℕ → ℝ) (idxList : List ℕ) :
    ∀ a : List ℝ,
      (idxList.foldl (fun l j => l.set j (f j)) a).length = a.length := by
  induction idxList with
  | nil => intro a; rfl
  | cons b t ih => intro a; rw [List.foldl_cons, ih, List.length_set]

/-- Writing `f j` at every `j < n` leaves slot `k` holding `f k` for `k < n`
and the original value otherwise. -/
theorem foldl_set_range_getD (f : ℕ → ℝ) :
    ∀ (n : ℕ) (a : List ℝ), n ≤ a.length → ∀ k, k < a.length →
      ((List.range n).foldl (fun l j => l.set j (f j)) a).getD k 0 =
        if k < n then f k else a.getD k 0 := by
  intro n
  induction n with
  | zero => intro a _ k _; simp
  | succ m ih =>
    intro a hma k hk
    rw [List.range_succ, List.foldl_append, List.foldl_cons, List.foldl_nil]
    by_cases hkm : k = m
    · subst hkm
      rw [getD_set_self_real _ _ _ (by
        rw [foldl_set_fn_length]
        exact Nat.lt_of_succ_le hma)]
      rw [if_pos (Nat.lt_succ_self k)]
    · rw [getD_set_ne_real _ _ _ _ (fun he => hkm he.symm),
        ih a (Nat.le_of_succ_le hma) k hk]
      by_cases hklt : k < m
      · rw [if_pos hklt, if_pos (Nat.lt_succ_of_lt hklt)]
      · rw [if_neg hklt,
          if_neg (fun h => hklt (Nat.lt_of_le_of_ne (Nat.lt_succ_iff.mp h) hkm))]

/-- The `set_error` call sequence of `VMaxCrossEntropyLoss.backward` leaves
slot `k` holding the overwritten label value at `k = y` and `f k` elsewhere. -/
theorem setErrorFold_calls (n : ℕ) (f : ℕ → ℝ) (y : ℕ) (v : ℝ) (hy : y < n)
    (k : ℕ) (hk : k < n) :
    (setErrorFold n (((List.range n).map fun j => (j, f j)) ++ [(y, v)])).getD
        k 0 = if k = y then v else f k := by
  unfold setErrorFold
  rw [List.foldl_append, List.foldl_cons, List.foldl_nil, List.foldl_map]
  by_cases hky : k = y
  · subst hky
    rw [if_pos rfl]
    refine getD_set_self_real _ _ _ ?_
    rw [foldl_set_fn_length, List.length_replicate]
    exact hk
  · rw [if_neg hky, getD_set_ne_real _ _ _ _ (fun he => hky he.symm),
      foldl_set_range_getD f n (List.replicate n 0) (by simp) k (by simp [hk]),
      if_pos hk]

/-- Folding arbitrary indexed writes preserves the array length. -/
theorem foldl_set_pair_length (calls : List (ℕ × ℝ)) :
    ∀ a : List ℝ, (calls.foldl (fun l c => l.set c.1 c.2) a).length = a.length := by
  induction calls with
  | nil => intro a; rfl
  | cons c t ih => intro a; rw [List.foldl_cons, ih, List.length_set]

/-- Length of the error array produced by the `set_error` sequence. -/
theorem setErrorFold_length (n : ℕ) (calls : List (ℕ × ℝ)) :
    (setErrorFold n calls).length = n := by
  unfold setErrorFold
  rw [foldl_set_pair_length, List.length_replicate]

/-- Sum of a mapped list after overwriting one entry. -/
theorem sum_map_set (f : ℝ → ℝ) :
    ∀ (l : List ℝ) (j : ℕ), j < l.length → ∀ x : ℝ,
      ((l.set j x).map f).sum = (l.map f).sum - f (l.getD j 0) + f x := by
  intro l
  induction l with
  | nil => intro j hj; simp at hj
  | cons a t ih =>
    intro j hj x
    cases j with
    | zero =>
      simp only [List.set_cons_zero, List.map_cons, List.sum_cons,
        List.getD_cons_zero]
      ring
    | succ m =>
      simp only [List.set_cons_succ, List.map_cons, List.sum_cons,
        List.getD_cons_succ]
      rw [ih m (by simpa using hj) x]
      ring

/-- Each exponentiated entry is bounded by the exponential row sum. -/
theorem exp_le_sum_map_exp (l : List ℝ) (j : ℕ) (hj : j < l.length) :
    Real.exp (l.getD j 0) ≤ (l.map Real.exp).sum := by
  refine List.single_le_sum (fun x hx => ?_) _ ?_
  · rcases List.mem_map.mp hx with ⟨t, _, rfl⟩
    exact (Real.exp_pos t).le
  · refine List.mem_map.mpr ⟨l.getD j 0, ?_, rfl⟩
    rw [List.getD_eq_getElem _ _ hj]
    exact List.getElem_mem hj

/-- The softmax cross-entropy coordinate derivative: moving coordinate `j` of
the maxima row, the per-sample VMax loss has derivative
`softmax(v)_j − 1{j = y}` at the current value. -/
theorem vmaxSampleLoss_hasDerivAt (r : List ℝ) (y j : ℕ) (hy : y < r.length)
    (hj : j < r.length) :
    HasDerivAt (fun x => vmaxSampleLoss (r.set j x) y)
      (softmaxEntry r j - if j = y then 1 else 0) (r.getD j 0) := by
  have hCnn : 0 ≤ (r.map Real.exp).sum - Real.exp (r.getD j 0) :=
    sub_nonneg.mpr (exp_le_sum_map_exp r j hj)
  have hpos : ∀ x : ℝ,
      0 < Real.exp x + ((r.map Real.exp).sum - Real.exp (r.getD j 0)) :=
    fun x => add_pos_of_pos_of_nonneg (Real.exp_pos x) hCnn
  have hfun : (fun x => vmaxSampleLoss (r.set j x) y) = fun x =>
      -(if j = y then x else r.getD y 0) +
        Real.log (Real.exp x +
          ((r.map Real.exp).sum - Real.exp (r.getD j 0))) := by
    funext x
    unfold vmaxSampleLoss
    have hsum : ((r.set j x).map Real.exp).sum =
        Real.exp x + ((r.map Real.exp).sum - Real.exp (r.getD j 0)) := by
      rw [sum_map_set Real.exp r j hj x]
      ring
    have hgetD : (r.set j x).getD y 0 = if j = y then x else r.getD y 0 := by
      by_cases hjy : j = y
      · subst hjy
        rw [if_pos rfl]
        exact getD_set_self_real r j x hj
      · rw [if_neg hjy]
        exact getD_set_ne_real r j y x hjy
    rw [hsum, hgetD, Real.log_div (Real.exp_ne_zero _) (ne_of_gt (hpos x)),
      Real.log_exp]
    ring
  rw [hfun]
  have hlog : HasDerivAt
      (fun x => Real.log (Real.exp x +
        ((r.map Real.exp).sum - Real.exp (r.getD j 0))))
      (Real.exp (r.getD j 0) /
        (Real.exp (r.getD j 0) +
          ((r.map Real.exp).sum - Real.exp (r.getD j 0))))
      (r.getD j 0) :=
    ((Real.hasDerivAt_exp _).add_const _).log (ne_of_gt (hpos _))
  by_cases hjy : j = y
  · have h1 : HasDerivAt
        (fun x : ℝ => -(if j = y then x else r.getD y 0)) (-1) (r.getD j 0) := by
      simp only [if_pos hjy]
      simpa using (hasDerivAt_id (r.getD j 0)).neg
    have h2 := h1.add hlog
    convert h2 using 1
    unfold softmaxEntry
    rw [if_pos hjy]
    have hS : Real.exp (r.getD j 0) +
        ((r.map Real.exp).sum - Real.exp (r.getD j 0)) = (r.map Real.exp).sum := by
      ring
    rw [hS]
    ring
  · have h1 : HasDerivAt
        (fun x : ℝ => -(if j = y then x else r.getD y 0)) 0 (r.getD j 0) := by
      simp only [if_neg hjy]
      simpa using (hasDerivAt_const (r.getD j 0) (r.getD y 0)).neg
    have h2 := h1.add hlog
    convert h2 using 1
    unfold softmaxEntry
    rw [if_neg hjy]
    have hS : Real.exp (r.getD j 0) +
        ((r.map Real.exp).sum - Real.exp (r.getD j 0)) = (r.map Real.exp).sum := by
      ring
    rw [hS]
    ring

/-- An in-range default read is a member of the list. -/
theorem getD_mem_list {α : Type} (M : List α) (i : ℕ) (d : α)
    (hi : i < M.length) : M.getD i d ∈ M := by
  rw [List.getD_eq_getElem _ _ hi]
  exact List.getElem_mem hi

/-- Reading a mapped list at an in-range index. -/
theorem getD_map_list {α β : Type} (g : α → β) (M : List α) (i : ℕ) (d' : α)
    (d : β) (hi : i < M.length) : (M.map g).getD i d = g (M.getD i d') := by
  rw [List.getD_eq_getElem _ _ (by simpa using hi), List.getElem_map,
    List.getD_eq_getElem _ _ hi]

/-- C2: after `VMaxCrossEntropyLoss.forward`, `backward` leaves in each
sample's error array exactly `(softmax(v_i)_j − 1{j = y_i}) / B` at every
neuron `j`; `get_losses` computes the per-sample softmax cross-entropy of
the maxima; and that injected value times `B` is the derivative of the
per-sample loss with respect to the neuron's voltage maximum, i.e. the
analytic gradient `softmax(v)_j − 1{j = y}`. -/
theorem vmax_backward_matches_spec (n : ℕ) (M : List (List ℝ))
    (labels : List ℕ) (hrows : ∀ row ∈ M, row.length = n)
    (hlab : ∀ i, i < M.length → labels.getD i 0 < n) :
    vmaxBackward n (vmaxForward M) labels =
      .ok (vmaxBackwardClaim n M labels) ∧
    vmaxGetLosses (vmaxForward M) labels =
      .ok ((List.range M.length).map fun i =>
        vmaxSampleLoss (M.getD i []) (labels.getD i 0)) ∧
    ∀ i, i < M.length → ∀ j, j < n →
      HasDerivAt
        (fun x => vmaxSampleLoss ((M.getD i []).set j x) (labels.getD i 0))
        (softmaxEntry (M.getD i []) j - if j = labels.getD i 0 then 1 else 0)
        ((M.getD i []).getD j 0) := by
  refine ⟨?_, ?_, ?_⟩
  · unfold vmaxBackward vmaxForward vmaxBackwardClaim
    simp only [Bool.true_eq_false, if_false, reduceCtorEq]
    refine congrArg Except.ok (List.map_congr_left fun i hi => ?_)
    have hiB : i < M.length := List.mem_range.mp hi
    have hrow : (M.getD i []).length = n := hrows _ (getD_mem_list M i [] hiB)
    have hy : labels.getD i 0 < n := hlab i hiB
    have hsums : (M.map fun row => (row.map Real.exp).sum).getD i 0 =
        ((M.getD i []).map Real.exp).sum := getD_map_list _ M i [] 0 hiB
    rw [hsums]
    refine List.ext_getElem ?_ fun k h1 h2 => ?_
    · rw [setErrorFold_length, List.length_map, List.length_range]
    · have hk : k < n := by
        rw [setErrorFold_length] at h1
        exact h1
      rw [← List.getD_eq_getElem _ 0 h1,
        setErrorFold_calls n _ (labels.getD i 0) _ hy k hk,
        List.getElem_map, List.getElem_range]
      by_cases hky : k = labels.getD i 0
      · rw [if_pos hky, if_pos hky]
        unfold softmaxEntry
        rw [hky]
        ring
      · rw [if_neg hky, if_neg hky]
        unfold softmaxEntry
        ring
  · unfold vmaxGetLosses vmaxForward
    simp only [Bool.true_eq_false, if_false, reduceCtorEq]
    refine congrArg Except.ok (List.map_congr_left fun i hi => ?_)
    have hiB : i < M.length := List.mem_range.mp hi
    unfold vmaxSampleLoss
    rw [getD_map_list _ M i [] 0 hiB]
  · intro i hi j hj
    have hrow : (M.getD i []).length = n := hrows _ (getD_mem_list M i [] hi)
    exact vmaxSampleLoss_hasDerivAt (M.getD i []) (labels.getD i 0) j
      (hrow ▸ hlab i hi) (hrow ▸ hj)

/-- Witness for `vmax_backward_matches_spec` at a one-sample, two-neuron
forwarded batch. -/
theorem vmax_backward_matches_spec_witness :
    (∀ row ∈ [[(0 : ℝ), 0]], row.length = 2) ∧
    (∀ i, i < ([[(0 : ℝ), 0]] : List (List ℝ)).length →
      ([0] : List ℕ).getD i 0 < 2) ∧
    vmaxBackward 2 (vmaxForward [[0, 0]]) [0] =
      .ok (vmaxBackwardClaim 2 [[0, 0]] [0]) :=
  ⟨by decide, by decide,
    (vmax_backward_matches_spec 2 [[0, 0]] [0] (by decide) (by decide)).1⟩
